import Mathlib

/-!
Verification of the LIFEE retrieval engine against its specification.

The development shallowly embeds the three algorithmic components of the
repository:

* `src/lifee/memory/chunker.py` — token-budgeted line chunking with overlap
  (`chunk_markdown`);
* `src/backend/memory/search.py` — cosine similarity, FTS query building and
  the hybrid vector+lexical search pipeline (`hybrid_search`);
* `src/backend/memory/manager.py` together with `src/backend/memory/schema.py`
  — the SQLite-backed incremental indexer (`MemoryManager.index_file`,
  `MemoryManager.index_directory`).

Modelling conventions:

* Python `str` is Lean `String`; `len` is `String.length` (both count
  characters/code points).
* Python floats are idealized as real numbers `ℝ`.
* SHA-256 digests are idealized as injective: `Chunk.compute_hash` becomes a
  function parameter (instantiated with `id` at the store level), and the
  chunk id `sha256(f"{path}:{start}:{end}:{hash}:{model}")[:16]` becomes the
  structure `ChunkKey` holding the five components.
* The SQLite FTS5 `MATCH`/`bm25` primitive is external to the repository; it
  is modelled as an oracle field of the database structure, whose `.error`
  result models `sqlite3.OperationalError`.
-/

namespace LIFEE

/-! ## Chunker (`src/lifee/memory/chunker.py`) -/

/-- Model of Python `content.split("\n")` on the character list: splits at
every newline, keeping empty pieces; the empty string yields `[[]]`. -/
def splitNlChars : List Char → List (List Char)
  | [] => [[]]
  | c :: cs =>
    let r := splitNlChars cs
    if c = '\n' then [] :: r
    else
      match r with
      | [] => [[c]]
      | h :: t => (c :: h) :: t

/-- Model of Python `content.split("\n")` producing the list of lines. -/
def pyLines (content : String) : List String :=
  (splitNlChars content.data).map (fun l => ⟨l⟩)

/-- Model of Python `"\n".join(lines)`. -/
def joinLines : List String → String
  | [] => ""
  | [l] => l
  | l :: ls => l ++ "\n" ++ joinLines ls

/-- Truthiness of Python `s.strip()`: `s.strip()` is non-empty exactly when
`s` contains a non-whitespace character. -/
def hasNonWs (s : String) : Bool :=
  s.data.any (fun c => !c.isWhitespace)

/-- A chunk as produced by `chunk_markdown` (dataclass `Chunk` of
`chunker.py`); `hash` is the truncated SHA-256 of `text`, supplied by the
`hashFn` parameter of the embedding. -/
structure Chunk where
  text : String
  start_line : Nat
  end_line : Nat
  hash : String
deriving DecidableEq

/-- Loop state of `chunk_markdown`: emitted chunks, current line buffer,
its character count, and the start line of the current buffer. -/
structure CState where
  chunks : List Chunk
  cur : List String
  curChars : Nat
  startLine : Nat
deriving DecidableEq

/-- The overlap loop of `chunk_markdown`: walk `reversed(current_lines)`,
prepending lines while the running character total stays within
`overlap_chars`, stopping at the first line that does not fit. -/
def overlapLoop (oc : Nat) : List String → Nat → List String → (List String × Nat)
  | [], tot, acc => (acc, tot)
  | l :: rest, tot, acc =>
    if tot + (l.length + 1) ≤ oc then
      overlapLoop oc rest (tot + (l.length + 1)) (l :: acc)
    else (acc, tot)

/-- `takeOverlap oc cur` returns the lines retained from the end of the
just-closed buffer (`overlap_lines`) and their character total
(`overlap_total`). -/
def takeOverlap (oc : Nat) (cur : List String) : List String × Nat :=
  overlapLoop oc cur.reverse 0 []

/-- One iteration of the `for i, line in enumerate(lines)` loop of
`chunk_markdown`: when adding the line would exceed `max_chars` and the
buffer is non-empty, emit the buffer as a chunk (lines `start_line .. i-1`,
skipped when its stripped text is empty) and reseed the buffer with the
overlap suffix; in both cases the current line is then appended to the
buffer (the source appends after the `if`; here the append is inlined into
each branch). -/
def chunkStep (mc oc : Nat) (hashFn : String → String) (i : Nat) (line : String)
    (s : CState) : CState :=
  if s.curChars + (line.length + 1) > mc ∧ s.cur ≠ [] then
    { chunks :=
        if hasNonWs (joinLines s.cur) then
          s.chunks ++ [⟨joinLines s.cur, s.startLine, i - 1, hashFn (joinLines s.cur)⟩]
        else s.chunks,
      cur := (takeOverlap oc s.cur).1 ++ [line],
      curChars := (takeOverlap oc s.cur).2 + (line.length + 1),
      startLine := i - (takeOverlap oc s.cur).1.length }
  else
    { s with cur := s.cur ++ [line], curChars := s.curChars + (line.length + 1) }

/-- The whole enumeration loop of `chunk_markdown`. -/
def chunkLoop (mc oc : Nat) (hashFn : String → String) : List String → Nat → CState → CState
  | [], _, s => s
  | l :: ls, i, s => chunkLoop mc oc hashFn ls (i + 1) (chunkStep mc oc hashFn i l s)

/-- The final flush of `chunk_markdown`: emit the remaining buffer (if its
stripped text is non-empty) with `end_line = len(lines) - 1`. -/
def chunkFlush (hashFn : String → String) (numLines : Nat) (s : CState) : List Chunk :=
  if s.cur ≠ [] then
    let chunkText := joinLines s.cur
    if hasNonWs chunkText then
      s.chunks ++ [⟨chunkText, s.startLine, numLines - 1, hashFn chunkText⟩]
    else s.chunks
  else s.chunks

/-- `chunk_markdown(content, max_tokens, overlap_tokens)` of
`src/lifee/memory/chunker.py`. Token parameters are Python ints, hence `ℤ`;
`max_chars = max(32, max_tokens*4)` and `overlap_chars = max(0,
overlap_tokens*4)` are the clamped character budgets. -/
def chunk_markdown (content : String) (max_tokens overlap_tokens : ℤ)
    (hashFn : String → String) : List Chunk :=
  let mc : Nat := (max 32 (max_tokens * 4)).toNat
  let oc : Nat := (max 0 (overlap_tokens * 4)).toNat
  let lines := pyLines content
  match lines with
  | [] => []
  | _ =>
    chunkFlush hashFn lines.length
      (chunkLoop mc oc hashFn lines 0 ⟨[], [], 0, 0⟩)

/-! ## Cosine similarity and FTS query building (`src/backend/memory/search.py`) -/

/-- `np.dot` on equal-length vectors: the sum of pointwise products. -/
def dotList (a b : List ℝ) : ℝ :=
  (List.zipWith (fun x y => x * y) a b).sum

/-- `np.linalg.norm`: the square root of the sum of squares. -/
noncomputable def normList (a : List ℝ) : ℝ :=
  Real.sqrt ((a.map (fun x => x * x)).sum)

/-- `cosine_similarity` of `search.py`: `dot / (norm_a * norm_b)`, returning
`0.0` when either norm is zero. -/
noncomputable def cosine_similarity (a b : List ℝ) : ℝ :=
  let d := dotList a b
  let na := normList a
  let nb := normList b
  if na = 0 ∨ nb = 0 then 0 else d / (na * nb)

/-- A word character of the tokenization regex `[\w一-鿿]+` of
`build_fts_query` (ASCII word characters together with the explicit CJK
range). -/
def isWordChar (c : Char) : Bool :=
  c.isAlphanum || c = '_' || (0x4e00 ≤ c.toNat && c.toNat ≤ 0x9fff)

/-- Maximal runs of word characters, as `re.findall` over the query text. -/
def wordRuns : List Char → List (List Char)
  | [] => []
  | c :: cs =>
    let r := wordRuns cs
    if isWordChar c then
      match cs with
      | [] => [[c]]
      | c' :: _ =>
        if isWordChar c' then
          match r with
          | [] => [[c]]
          | h :: t => (c :: h) :: t
        else [c] :: r
    else r

/-- The word tokens of a query (`re.findall(r'[\w一-鿿]+', query)`). -/
def findWords (q : String) : List String :=
  (wordRuns q.data).map (fun l => ⟨l⟩)

/-- `build_fts_query` of `search.py`: quote every token and join with
`" AND "`; the empty token list gives the empty string. -/
def build_fts_query (q : String) : String :=
  match findWords q with
  | [] => ""
  | w :: ws =>
    (ws.foldl (fun acc t => acc ++ " AND " ++ "\"" ++ t ++ "\"") ("\"" ++ w ++ "\""))

/-! ## Hybrid search pipeline (`src/backend/memory/search.py`) -/

/-- The dataclass `SearchResult` of `search.py`. -/
structure SearchResult where
  id : String
  path : String
  start_line : ℤ
  end_line : ℤ
  text : String
  score : ℝ
  vector_score : Option ℝ
  text_score : Option ℝ

/-- A row of the `chunks` table as read by `search_vector`
(`SELECT id, path, start_line, end_line, text, embedding FROM chunks WHERE
model = ?`), with `embedding` already deserialized from JSON. -/
structure VecRow where
  id : String
  path : String
  start_line : ℤ
  end_line : ℤ
  model : String
  text : String
  embedding : List ℝ

/-- A row returned by the FTS5 `MATCH` query of `search_keyword`, with the
`bm25` rank. -/
structure FtsHit where
  id : String
  path : String
  start_line : ℤ
  end_line : ℤ
  text : String
  rank : ℝ

/-- The SQLite connection as seen by `search.py`: the `chunks` table rows,
and the FTS5 `MATCH`/`bm25` primitive (which is part of SQLite, not of this
repository) as an oracle. An `.error` result of `ftsMatch` models
`sqlite3.OperationalError`; `.ok rows` is the ranked, limited result set of
the `SEARCH_FTS_SQL` query. -/
structure SearchDb where
  chunks : List VecRow
  ftsMatch : String → String → Nat → Except Unit (List FtsHit)

noncomputable instance : DecidableRel (fun (a b : SearchResult) => b.score ≤ a.score) :=
  fun a b => Real.decidableLE b.score a.score

/-- Python `results.sort(key=lambda x: x.score, reverse=True)`: a stable
sort descending by score (equal scores keep their original order). -/
noncomputable def sortByScoreDesc (l : List SearchResult) : List SearchResult :=
  l.insertionSort (fun a b => b.score ≤ a.score)

/-- `search_vector` of `search.py`: score every chunk of the model by cosine
similarity against the query embedding, sort descending, take `limit`. -/
noncomputable def search_vector (db : SearchDb) (query_embedding : List ℝ)
    (model : String) (limit : Nat) : List SearchResult :=
  let results := (db.chunks.filter (fun r => r.model = model)).map fun row =>
    let similarity := cosine_similarity query_embedding row.embedding
    ({ id := row.id, path := row.path, start_line := row.start_line,
       end_line := row.end_line, text := row.text, score := similarity,
       vector_score := some similarity, text_score := none } : SearchResult)
  (sortByScoreDesc results).take limit

/-- `search_keyword` of `search.py`: empty token list or a rejected FTS
query yields `[]`; otherwise each returned rank is normalized via
`1 / (1 + max(0, -rank))`. -/
noncomputable def search_keyword (db : SearchDb) (query : String)
    (model : String) (limit : Nat) : List SearchResult :=
  let fts_query := build_fts_query query
  if fts_query = "" then []
  else
    match db.ftsMatch fts_query model limit with
    | .error _ => []
    | .ok rows =>
      rows.map fun row =>
        let text_score := 1 / (1 + max 0 (-row.rank))
        ({ id := row.id, path := row.path, start_line := row.start_line,
           end_line := row.end_line, text := row.text, score := text_score,
           vector_score := none, text_score := some text_score } : SearchResult)

/-- The entry written into `merged` for a vector-phase result
(`score=0.0`, `text_score=None`, the vector score kept). -/
def vecEntry (r : SearchResult) : SearchResult :=
  { r with score := 0, text_score := none }

/-- The entry written into `merged` for a keyword-phase result not already
present (`score=0.0`, `vector_score=None`, the text score kept). -/
def txtEntry (r : SearchResult) : SearchResult :=
  { r with score := 0, vector_score := none }

/-- `merged[result.id] = ...` for the vector loop: a Python dict keyed by
id in insertion order, modelled as an association list (replace in place,
else append). -/
def insertVec (acc : List SearchResult) (r : SearchResult) : List SearchResult :=
  if acc.any (fun x => x.id = r.id) then
    acc.map (fun x => if x.id = r.id then vecEntry r else x)
  else acc ++ [vecEntry r]

/-- The keyword loop of the merge: an id already present only gets its
`text_score` updated, a new id is appended as a text-only entry. -/
def insertTxt (acc : List SearchResult) (r : SearchResult) : List SearchResult :=
  if acc.any (fun x => x.id = r.id) then
    acc.map (fun x => if x.id = r.id then { x with text_score := r.text_score } else x)
  else acc ++ [txtEntry r]

/-- Steps 3–5 of `hybrid_search`: merge the two phases by id, compute the
composite `vector_weight * vector_score + text_weight * text_score`
(a missing phase counting as 0, as Python `x or 0.0` does for
`None`), drop composites below `min_score`, sort descending, take the top
`max_results`. -/
noncomputable def merge_and_rank (vector_results keyword_results : List SearchResult)
    (max_results : Nat) (min_score vector_weight text_weight : ℝ) : List SearchResult :=
  let merged := keyword_results.foldl insertTxt (vector_results.foldl insertVec [])
  let scored := merged.map fun r =>
    { r with score := vector_weight * r.vector_score.getD 0 + text_weight * r.text_score.getD 0 }
  let final_results := scored.filter fun r => min_score ≤ r.score
  (sortByScoreDesc final_results).take max_results

/-- `hybrid_search` of `search.py`. -/
noncomputable def hybrid_search (db : SearchDb) (query_embedding : List ℝ)
    (query_text model : String) (max_results : Nat)
    (min_score vector_weight text_weight : ℝ) (candidate_multiplier : Nat) :
    List SearchResult :=
  let candidates := max_results * candidate_multiplier
  merge_and_rank
    (search_vector db query_embedding model candidates)
    (search_keyword db query_text model candidates)
    max_results min_score vector_weight text_weight

/-! ## Store and indexer (`src/backend/memory/manager.py`, `schema.py`) -/

/-- The data the filesystem holds for an existing file: its text content and
the `stat` fields the indexer records. `_file_hash` (SHA-256 of the content)
is idealized as injective, so the content itself stands for its hash. -/
structure FileData where
  content : String
  mtime : ℤ
  size : ℤ

/-- The filesystem as seen by the indexer: `none` models a missing path. -/
def Fs : Type := String → Option FileData

/-- The embedding backend's `embed_batch`; `.error` models a transport/auth
failure raised by the provider. -/
def EmbBatch : Type := List String → Except String (List (List ℝ))

/-- The chunk id `sha256(f"{path}:{start}:{end}:{hash}:{model}")[:16]` of
`MemoryManager._chunk_id`, idealized as an injective function of its five
components and therefore modelled as the tuple itself. -/
structure ChunkKey where
  path : String
  start_line : Nat
  end_line : Nat
  hash : String
  model : String
deriving DecidableEq

/-- A row of the `files` table of `schema.py`. -/
structure FileRow where
  path : String
  hash : String
  mtime : ℤ
  size : ℤ

/-- A row of the `chunks` table of `schema.py`. -/
structure StoredChunk where
  id : ChunkKey
  path : String
  start_line : Nat
  end_line : Nat
  hash : String
  model : String
  text : String
  embedding : List ℝ
  updated_at : ℤ

/-- A row of the `chunks_fts` FTS5 table of `schema.py`. -/
structure FtsRow where
  text : String
  id : ChunkKey
  path : String
  model : String
  start_line : Nat
  end_line : Nat

/-- The SQLite database of the manager: the three tables of `SCHEMA_SQL`
that the indexer writes. -/
structure Store where
  files : List FileRow
  chunks : List StoredChunk
  fts : List FtsRow

/-- A freshly created database. -/
def emptyStore : Store := ⟨[], [], []⟩

/-- `SELECT_FILE_SQL`: point lookup of a file record by path. -/
def lookupFile (st : Store) (p : String) : Option FileRow :=
  st.files.find? (fun f => f.path = p)

/-- `INSERT OR REPLACE` on a primary key: replace the conflicting row in
place, else append. -/
def upsertFileRow (files : List FileRow) (row : FileRow) : List FileRow :=
  if files.any (fun f => f.path = row.path) then
    files.map (fun f => if f.path = row.path then row else f)
  else files ++ [row]

/-- `INSERT OR REPLACE INTO chunks` keyed by the id. -/
def insertChunkRow (chunks : List StoredChunk) (row : StoredChunk) : List StoredChunk :=
  if chunks.any (fun c => c.id = row.id) then
    chunks.map (fun c => if c.id = row.id then row else c)
  else chunks ++ [row]

/-- `MemoryManager._needs_reindex`: absent record means reindex, otherwise
compare the stored hash with the hash of the current content. -/
def needsReindex (st : Store) (p : String) (fd : FileData) : Bool :=
  match lookupFile st p with
  | none => true
  | some fr => fr.hash != fd.content

/-- The `chunks` row written by the indexing loop of `index_file`. -/
def mkChunkRow (p model : String) (now : ℤ) (c : Chunk) (e : List ℝ) : StoredChunk :=
  { id := ⟨p, c.start_line, c.end_line, c.hash, model⟩, path := p,
    start_line := c.start_line, end_line := c.end_line, hash := c.hash,
    model := model, text := c.text, embedding := e, updated_at := now }

/-- The `chunks_fts` row written by the indexing loop of `index_file`. -/
def mkFtsRow (p model : String) (c : Chunk) : FtsRow :=
  { text := c.text, id := ⟨p, c.start_line, c.end_line, c.hash, model⟩,
    path := p, model := model, start_line := c.start_line, end_line := c.end_line }

/-- The insertion loop of `index_file`: for each (chunk, embedding) pair,
`INSERT OR REPLACE` the chunk row and `INSERT` the FTS row. -/
def insertRows (st : Store) (p model : String) (now : ℤ)
    (pairs : List (Chunk × List ℝ)) : Store :=
  pairs.foldl
    (fun acc pr =>
      { acc with
        chunks := insertChunkRow acc.chunks (mkChunkRow p model now pr.1 pr.2),
        fts := acc.fts ++ [mkFtsRow p model pr.1] })
    st

/-- `MemoryManager.index_file`. Returns the database state after the call
together with the outcome: `.ok n` is the returned chunk count, `.error e`
is a propagated `embed_batch` failure (which occurs before any database
write). `_file_hash` and the chunk-text hash are idealized as injective
(the identity on the text). -/
def index_file (fs : Fs) (emb : EmbBatch) (model : String) (now : ℤ)
    (st : Store) (p : String) (force : Bool) (max_tokens overlap_tokens : ℤ) :
    Store × Except String Nat :=
  match fs p with
  | none => (st, .ok 0)
  | some fd =>
    if force = false ∧ needsReindex st p fd = false then (st, .ok 0)
    else
      let chunks := chunk_markdown fd.content max_tokens overlap_tokens id
      if chunks = [] then (st, .ok 0)
      else
        match emb (chunks.map (fun c => c.text)) with
        | .error e => (st, .error e)
        | .ok embeddings =>
          let st1 : Store :=
            { st with
              fts := st.fts.filter (fun r => r.path ≠ p),
              chunks := st.chunks.filter (fun c => c.path ≠ p) }
          let st2 := insertRows st1 p model now (chunks.zip embeddings)
          let st3 : Store :=
            { st2 with files := upsertFileRow st2.files ⟨p, fd.content, fd.mtime, fd.size⟩ }
          (st3, .ok chunks.length)

/-- The loop of `MemoryManager.index_directory` over the files found by
`rglob` (the list of paths is supplied by the filesystem); a propagated
failure aborts the remaining files, as the Python `for` loop does. -/
def index_directory_go (fs : Fs) (emb : EmbBatch) (model : String) (now : ℤ)
    (force : Bool) : List String → Store → Nat → Store × Except String Nat
  | [], st, acc => (st, .ok acc)
  | p :: ps, st, acc =>
    match index_file fs emb model now st p force 400 80 with
    | (st', .ok n) => index_directory_go fs emb model now force ps st' (acc + n)
    | (st', .error e) => (st', .error e)

/-- `MemoryManager.index_directory` with the matched file list made
explicit. -/
def index_directory (fs : Fs) (emb : EmbBatch) (model : String) (now : ℤ)
    (st : Store) (paths : List String) (force : Bool) : Store × Except String Nat :=
  index_directory_go fs emb model now force paths st 0

/-- One indexing operation issued against the manager, with the filesystem
contents, embedding backend behaviour and clock at the time of the call. -/
inductive IndexOp where
  | file (fs : Fs) (emb : EmbBatch) (now : ℤ) (p : String) (force : Bool)
      (max_tokens overlap_tokens : ℤ)
  | dir (fs : Fs) (emb : EmbBatch) (now : ℤ) (paths : List String) (force : Bool)

/-- The database state after one operation (errors propagate to the caller
but the database keeps the state reached by the call). -/
def runOp (model : String) (st : Store) (o : IndexOp) : Store :=
  match o with
  | .file fs emb now p force mt ot => (index_file fs emb model now st p force mt ot).1
  | .dir fs emb now ps force => (index_directory fs emb model now st ps force).1

/-- The database state after a sequence of `index_file` / `index_directory`
calls on a manager with a fixed embedding model, starting from a fresh
database. -/
def runOps (model : String) (ops : List IndexOp) : Store :=
  ops.foldl (runOp model) emptyStore

/-- The rows of the `chunks` table belonging to a path. -/
def chunksFor (st : Store) (p : String) : List StoredChunk :=
  st.chunks.filter (fun c => c.path = p)

/-- The rows of the `chunks_fts` table belonging to a path. -/
def ftsFor (st : Store) (p : String) : List FtsRow :=
  st.fts.filter (fun r => r.path = p)

/-- The `chunks` rows produced by one indexing run of `index_file` over the
given (chunk, embedding) pairs, starting from no rows for the path. -/
def writtenChunks (p model : String) (now : ℤ) (pairs : List (Chunk × List ℝ)) :
    List StoredChunk :=
  pairs.foldl (fun acc pr => insertChunkRow acc (mkChunkRow p model now pr.1 pr.2)) []

/-- The `chunks_fts` rows produced by one indexing run of `index_file`. -/
def writtenFts (p model : String) (pairs : List (Chunk × List ℝ)) : List FtsRow :=
  pairs.map (fun pr => mkFtsRow p model pr.1)

/-- Schema well-formedness: every chunk row's id is derived from its own
path/lines/hash/model, as `_chunk_id` guarantees for every written row. -/
def WellFormed (st : Store) : Prop :=
  ∀ c ∈ st.chunks, c.id = ⟨c.path, c.start_line, c.end_line, c.hash, c.model⟩

/-- For one path: either no file record and no chunk/FTS rows at all, or the
rows for the path are exactly those written by a single indexing run of the
content recorded in the file record (the most recently indexed version). -/
def PathExact (model : String) (st : Store) (p : String) : Prop :=
  match lookupFile st p with
  | none => chunksFor st p = [] ∧ ftsFor st p = []
  | some fr =>
    ∃ (content : String) (mt ot now : ℤ) (embs : List (List ℝ)),
      fr.hash = content ∧
      chunk_markdown content mt ot id ≠ [] ∧
      chunksFor st p = writtenChunks p model now ((chunk_markdown content mt ot id).zip embs) ∧
      ftsFor st p = writtenFts p model ((chunk_markdown content mt ot id).zip embs)

/-- The store invariant of the indexer: well-formed ids, and per-path
exactness of the stored chunks with respect to the most recently indexed
content. -/
def StoreInv (model : String) (st : Store) : Prop :=
  WellFormed st ∧ ∀ p, PathExact model st p

/-! ## Cost accounting for the chunker claims -/

/-- The character count a line contributes inside a chunk: its length plus
one for the newline, mirroring `line_chars = len(line) + 1`. -/
def lineCost (lines : List String) (j : Nat) : Nat :=
  (lines.getD j "").length + 1

/-- The total character count of a list of buffered lines. -/
def cost (ls : List String) : Nat :=
  (ls.map (fun l => l.length + 1)).sum

/-- The total character count of the document lines with indices in
`[a, b]`. -/
def sliceCost (lines : List String) (a b : Nat) : Nat :=
  ∑ j in Finset.Icc a b, lineCost lines j

/-- The total character count of the lines shared by the ranges of two
chunks. -/
def overlapCost (lines : List String) (c c2 : Chunk) : Nat :=
  sliceCost lines (max c.start_line c2.start_line) (min c.end_line c2.end_line)

theorem cost_nil : cost [] = 0 := rfl

theorem cost_cons (l : String) (ls : List String) :
    cost (l :: ls) = (l.length + 1) + cost ls := by
  simp [cost]

theorem cost_append (a b : List String) : cost (a ++ b) = cost a + cost b := by
  simp [cost]

theorem cost_reverse (ls : List String) : cost ls.reverse = cost ls := by
  rw [cost, cost, List.map_reverse, List.sum_reverse]

theorem sliceCost_mono (lines : List String) {a b a2 b2 : Nat}
    (ha : a2 ≤ a) (hb : b ≤ b2) :
    sliceCost lines a b ≤ sliceCost lines a2 b2 :=
  Finset.sum_le_sum_of_subset (Finset.Icc_subset_Icc ha hb)

theorem lineCost_of_drop (lines : List String) (a : Nat) (l : String)
    (rest : List String) (h : lines.drop a = l :: rest) :
    lineCost lines a = l.length + 1 := by
  have hget : lines[a]? = some l := by
    have h0 : (lines.drop a)[0]? = lines[a + 0]? := List.getElem?_drop lines a 0
    rw [h] at h0
    simpa using h0.symm
  unfold lineCost
  rw [List.getD_eq_getElem?_getD, hget]
  rfl

theorem drop_tail_slice (lines ls : List String) (l : String) (a : Nat)
    (h : lines.drop a = (l :: ls) ++ lines.drop (a + (l :: ls).length)) :
    lines.drop (a + 1) = ls ++ lines.drop ((a + 1) + ls.length) := by
  have ht := congrArg List.tail h
  rw [List.tail_drop] at ht
  have harith : a + (l :: ls).length = (a + 1) + ls.length := by
    simp only [List.length_cons]
    omega
  rw [harith] at ht
  simpa using ht

/-- The character total of a contiguous slice of the document equals the
slice-cost of its index interval. -/
theorem sliceCost_of_slice (lines : List String) : ∀ (ls : List String) (a : Nat),
    lines.drop a = ls ++ lines.drop (a + ls.length) →
    a + ls.length ≤ lines.length →
    1 ≤ a + ls.length →
    sliceCost lines a (a + ls.length - 1) = cost ls := by
  intro ls
  induction ls with
  | nil =>
    intro a _ _ hpos
    have ha : 1 ≤ a := by simpa using hpos
    rw [sliceCost, Finset.Icc_eq_empty (by simp only [List.length_nil]; omega),
      Finset.sum_empty, cost_nil]
  | cons l t ih =>
    intro a hdrop hlen _
    have hhead : lineCost lines a = l.length + 1 := by
      apply lineCost_of_drop lines a l (t ++ lines.drop (a + (l :: t).length))
      simpa using hdrop
    have htail : lines.drop (a + 1) = t ++ lines.drop ((a + 1) + t.length) :=
      drop_tail_slice lines t l a hdrop
    have hb : a + (l :: t).length - 1 = a + t.length := by
      simp only [List.length_cons]
      omega
    rw [sliceCost, hb]
    have hsplit : Finset.Icc a (a + t.length) =
        insert a (Finset.Icc (a + 1) (a + t.length)) := by
      rw [Nat.Icc_succ_left, Finset.Ioc_insert_left (Nat.le_add_right a t.length)]
    rw [hsplit, Finset.sum_insert (by simp), cost_cons, hhead]
    congr 1
    rcases Nat.eq_zero_or_pos t.length with hz | hpos2
    · rw [List.length_eq_zero] at hz
      subst hz
      rw [show a + ([] : List String).length = a by simp,
        Finset.Icc_eq_empty (by omega), Finset.sum_empty, cost_nil]
    · have := ih (a + 1) htail
        (by simp only [List.length_cons] at hlen; omega) (by omega)
      rw [show (a + 1) + t.length - 1 = a + t.length by omega] at this
      rw [← this, sliceCost]

/-! ## The overlap-retention loop -/

theorem overlapLoop_spec (oc : Nat) : ∀ (rev : List String) (tot : Nat) (acc : List String),
    ∃ k, (overlapLoop oc rev tot acc).1 = (rev.take k).reverse ++ acc ∧
      (overlapLoop oc rev tot acc).2 = tot + cost (rev.take k) ∧
      (tot ≤ oc → (overlapLoop oc rev tot acc).2 ≤ oc) := by
  intro rev
  induction rev with
  | nil =>
    intro tot acc
    exact ⟨0, by simp [overlapLoop], by simp [overlapLoop, cost_nil],
      fun h => by simpa [overlapLoop] using h⟩
  | cons l rest ih =>
    intro tot acc
    by_cases hfit : tot + (l.length + 1) ≤ oc
    · obtain ⟨k, h1, h2, h3⟩ := ih (tot + (l.length + 1)) (l :: acc)
      refine ⟨k + 1, ?_, ?_, fun _ => ?_⟩
      · rw [overlapLoop, if_pos hfit, h1, List.take_succ_cons, List.reverse_cons,
          List.append_assoc]
        rfl
      · rw [overlapLoop, if_pos hfit, h2, List.take_succ_cons, cost_cons]
        omega
      · rw [overlapLoop, if_pos hfit]
        exact h3 hfit
    · refine ⟨0, ?_, ?_, fun h => ?_⟩
      · rw [overlapLoop, if_neg hfit]
        simp
      · rw [overlapLoop, if_neg hfit]
        simp [cost_nil]
      · rw [overlapLoop, if_neg hfit]
        exact h

/-- What the source's overlap computation guarantees: the retained lines are
a suffix of the buffer, `overlap_total` is their exact character count, and
it never exceeds `overlap_chars`. -/
theorem takeOverlap_spec (oc : Nat) (cur : List String) :
    ∃ pre, cur = pre ++ (takeOverlap oc cur).1 ∧
      (takeOverlap oc cur).2 = cost (takeOverlap oc cur).1 ∧
      (takeOverlap oc cur).2 ≤ oc := by
  obtain ⟨k, h1, h2, h3⟩ := overlapLoop_spec oc cur.reverse 0 []
  unfold takeOverlap
  refine ⟨(cur.reverse.drop k).reverse, ?_, ?_, h3 (Nat.zero_le oc)⟩
  · rw [h1, List.append_nil]
    conv_lhs => rw [← cur.reverse_reverse, ← List.take_append_drop k cur.reverse]
    rw [List.reverse_append]
  · rw [h1, h2, List.append_nil, Nat.zero_add, cost_reverse]

/-! ## Line structure lemmas -/

theorem splitNlChars_ne_nil (cs : List Char) : splitNlChars cs ≠ [] := by
  cases cs with
  | nil => simp [splitNlChars]
  | cons c rest =>
    unfold splitNlChars
    by_cases h : c = '\n'
    · simp [h]
    · rcases hr : splitNlChars rest with - | ⟨h2, t⟩ <;> simp [h, hr]

theorem pyLines_ne_nil (content : String) : pyLines content ≠ [] := by
  unfold pyLines
  intro h
  exact splitNlChars_ne_nil content.data (List.map_eq_nil_iff.mp h)

theorem hasNonWs_append (a b : String) :
    hasNonWs (a ++ b) = (hasNonWs a || hasNonWs b) := by
  have hd : (a ++ b).data = a.data ++ b.data := String.data_append a b
  simp [hasNonWs, hd, List.any_append]

theorem hasNonWs_joinLines (ls : List String) (l : String) (hl : l ∈ ls)
    (h : hasNonWs l = true) : hasNonWs (joinLines ls) = true := by
  induction ls with
  | nil => cases hl
  | cons a t ih =>
    cases t with
    | nil =>
      rw [List.mem_singleton] at hl
      subst hl
      simpa [joinLines] using h
    | cons b t2 =>
      rcases List.mem_cons.mp hl with rfl | hl2
      · simp [joinLines, hasNonWs_append, h]
      · simp [joinLines, hasNonWs_append, ih hl2]

/-! ## The chunker loop invariants -/

/-- Facts about the reseeded buffer start after an emission at index `i`:
the new start does not move left of the old one, the seed exactly fills
`[i - seed.length, i)`, and the seed is the corresponding document slice. -/
theorem seed_slice (oc : Nat) (lines : List String) (i : Nat) (s : CState)
    (hlen : s.startLine + s.cur.length = i)
    (hslice : lines.drop s.startLine = s.cur ++ lines.drop i) :
    s.startLine ≤ i - (takeOverlap oc s.cur).1.length ∧
    (i - (takeOverlap oc s.cur).1.length) + (takeOverlap oc s.cur).1.length = i ∧
    lines.drop (i - (takeOverlap oc s.cur).1.length) =
      (takeOverlap oc s.cur).1 ++ lines.drop i := by
  obtain ⟨pre, hpre, -, -⟩ := takeOverlap_spec oc s.cur
  have hlen2 := congrArg List.length hpre
  rw [List.length_append] at hlen2
  have hstart : i - (takeOverlap oc s.cur).1.length = s.startLine + pre.length := by
    omega
  refine ⟨by omega, by omega, ?_⟩
  rw [hstart, ← List.drop_drop, hslice]
  conv_lhs => rw [hpre, List.append_assoc]
  rw [List.drop_left]

/-- The loop invariant needed for the coverage claim: the buffer is the
document slice `[startLine, i)`, and every line index left of `startLine`
is covered by an already emitted chunk. -/
structure CovInv (lines : List String) (i : Nat) (s : CState) : Prop where
  hlen : s.startLine + s.cur.length = i
  hslice : lines.drop s.startLine = s.cur ++ lines.drop i
  hle : i ≤ lines.length
  hcur : i ≠ 0 → s.cur ≠ []
  hcov : ∀ j, j < s.startLine → ∃ c ∈ s.chunks, c.start_line ≤ j ∧ j ≤ c.end_line

theorem joinLines_nonblank (lines : List String)
    (hnb : ∀ x ∈ lines, hasNonWs x = true) (cur : List String)
    (startLine i : Nat) (hslice : lines.drop startLine = cur ++ lines.drop i)
    (hcne : cur ≠ []) : hasNonWs (joinLines cur) = true := by
  obtain ⟨x, hx⟩ := List.exists_mem_of_ne_nil cur hcne
  apply hasNonWs_joinLines cur x hx
  apply hnb
  apply List.mem_of_mem_drop (n := startLine)
  rw [hslice]
  exact List.mem_append_left _ hx

theorem chunkStep_cov (mc oc : Nat) (hf : String → String) (lines : List String)
    (hnb : ∀ x ∈ lines, hasNonWs x = true) (i : Nat) (l : String)
    (hl : lines.drop i = l :: lines.drop (i + 1)) (s : CState)
    (hinv : CovInv lines i s) : CovInv lines (i + 1) (chunkStep mc oc hf i l s) := by
  obtain ⟨hlen, hslice, hle, hcur, hcov⟩ := hinv
  have hil : i < lines.length := by
    by_contra hge
    rw [List.drop_eq_nil_of_le (by omega)] at hl
    cases hl
  unfold chunkStep
  by_cases hcond : s.curChars + (l.length + 1) > mc ∧ s.cur ≠ []
  · rw [if_pos hcond]
    obtain ⟨hb1, hb2, hb3⟩ := seed_slice oc lines i s hlen hslice
    have hnbc : hasNonWs (joinLines s.cur) = true :=
      joinLines_nonblank lines hnb s.cur s.startLine i hslice hcond.2
    rw [if_pos hnbc]
    refine ⟨?_, ?_, by omega, fun _ => by simp, ?_⟩
    · show (i - (takeOverlap oc s.cur).1.length) +
        ((takeOverlap oc s.cur).1 ++ [l]).length = i + 1
      rw [List.length_append]
      simp only [List.length_singleton]
      omega
    · show lines.drop (i - (takeOverlap oc s.cur).1.length) =
        ((takeOverlap oc s.cur).1 ++ [l]) ++ lines.drop (i + 1)
      rw [hb3, hl, List.append_assoc]
      rfl
    · show ∀ j, j < i - (takeOverlap oc s.cur).1.length →
        ∃ c ∈ s.chunks ++ [⟨joinLines s.cur, s.startLine, i - 1, hf (joinLines s.cur)⟩],
          c.start_line ≤ j ∧ j ≤ c.end_line
      intro j hj
      by_cases hjs : j < s.startLine
      · obtain ⟨c, hc, h1, h2⟩ := hcov j hjs
        exact ⟨c, List.mem_append_left _ hc, h1, h2⟩
      · refine ⟨⟨joinLines s.cur, s.startLine, i - 1, hf (joinLines s.cur)⟩,
          List.mem_append_right _ (List.mem_singleton_self _), ?_, ?_⟩
        · show s.startLine ≤ j
          omega
        · show j ≤ i - 1
          omega
  · rw [if_neg hcond]
    refine ⟨?_, ?_, by omega, fun _ => by simp, hcov⟩
    · show s.startLine + (s.cur ++ [l]).length = i + 1
      rw [List.length_append]
      simp only [List.length_singleton]
      omega
    · show lines.drop s.startLine = (s.cur ++ [l]) ++ lines.drop (i + 1)
      rw [hslice, hl, List.append_assoc]
      rfl

/-- A generic induction principle over the enumeration loop: any invariant
preserved by `chunkStep` and implying `i ≤ lines.length` holds of the final
state at `i = lines.length`. -/
theorem chunkLoop_inv (mc oc : Nat) (hf : String → String) (lines : List String)
    (P : Nat → CState → Prop)
    (hstep : ∀ i l s, lines.drop i = l :: lines.drop (i + 1) → P i s →
      P (i + 1) (chunkStep mc oc hf i l s))
    (hdom : ∀ i s, P i s → i ≤ lines.length) :
    ∀ (rest : List String) (i : Nat) (s : CState),
      lines.drop i = rest → P i s →
      P lines.length (chunkLoop mc oc hf rest i s) := by
  intro rest
  induction rest with
  | nil =>
    intro i s hdrop hinv
    have hlen := congrArg List.length hdrop
    rw [List.length_drop] at hlen
    have : i = lines.length := by
      have := hdom i s hinv
      simp at hlen
      omega
    subst this
    simpa [chunkLoop] using hinv
  | cons l rest2 ih =>
    intro i s hdrop hinv
    have hdrop2 : lines.drop (i + 1) = rest2 := by
      have ht := congrArg List.tail hdrop
      rw [List.tail_drop] at ht
      simpa using ht
    have hl : lines.drop i = l :: lines.drop (i + 1) := by rw [hdrop, hdrop2]
    rw [chunkLoop]
    exact ih (i + 1) _ hdrop2 (hstep i l s hl hinv)

/-- Unfolding `chunk_markdown` when the document has at least one line
(which `split("\n")` always guarantees). -/
theorem chunk_markdown_eq (content : String) (mt ot : ℤ) (hf : String → String) :
    chunk_markdown content mt ot hf =
      chunkFlush hf (pyLines content).length
        (chunkLoop (max 32 (mt * 4)).toNat (max 0 (ot * 4)).toNat hf
          (pyLines content) 0 ⟨[], [], 0, 0⟩) := by
  unfold chunk_markdown
  cases hpl : pyLines content with
  | nil => exact absurd hpl (pyLines_ne_nil content)
  | cons a b => rfl

/-- Coverage of the whole document by the emitted chunks, at the level of
the loop + flush pipeline, for documents with no blank line. -/
theorem chunkPipeline_coverage (mc oc : Nat) (hf : String → String)
    (lines : List String) (hne : lines ≠ [])
    (hnb : ∀ x ∈ lines, hasNonWs x = true) :
    (∀ j, j < lines.length →
      ∃ c ∈ chunkFlush hf lines.length (chunkLoop mc oc hf lines 0 ⟨[], [], 0, 0⟩),
        c.start_line ≤ j ∧ j ≤ c.end_line) ∧
    ∃ c, (chunkFlush hf lines.length
        (chunkLoop mc oc hf lines 0 ⟨[], [], 0, 0⟩)).getLast? = some c ∧
      c.end_line = lines.length - 1 := by
  have hinv0 : CovInv lines 0 ⟨[], [], 0, 0⟩ :=
    ⟨rfl, by simp, Nat.zero_le _, fun h => absurd rfl h, fun j hj => absurd hj (by simp)⟩
  have hfin : CovInv lines lines.length (chunkLoop mc oc hf lines 0 ⟨[], [], 0, 0⟩) :=
    chunkLoop_inv mc oc hf lines (CovInv lines)
      (fun i l s hl hinv => chunkStep_cov mc oc hf lines hnb i l hl s hinv)
      (fun _ _ hinv => hinv.hle) lines 0 ⟨[], [], 0, 0⟩ (by simp) hinv0
  obtain ⟨hlen, hslice, -, hcur, hcov⟩ := hfin
  have hn1 : 1 ≤ lines.length := by
    cases lines with
    | nil => exact absurd rfl hne
    | cons a b => simp
  have hcne : (chunkLoop mc oc hf lines 0 ⟨[], [], 0, 0⟩).cur ≠ [] := hcur (by omega)
  have hnbf : hasNonWs (joinLines (chunkLoop mc oc hf lines 0 ⟨[], [], 0, 0⟩).cur) = true :=
    joinLines_nonblank lines hnb _ _ lines.length hslice hcne
  unfold chunkFlush
  rw [if_pos hcne, if_pos hnbf]
  constructor
  · intro j hj
    by_cases hjs : j < (chunkLoop mc oc hf lines 0 ⟨[], [], 0, 0⟩).startLine
    · obtain ⟨c, hc, h1, h2⟩ := hcov j hjs
      exact ⟨c, List.mem_append_left _ hc, h1, h2⟩
    · refine ⟨⟨joinLines (chunkLoop mc oc hf lines 0 ⟨[], [], 0, 0⟩).cur,
        (chunkLoop mc oc hf lines 0 ⟨[], [], 0, 0⟩).startLine, lines.length - 1,
        hf (joinLines (chunkLoop mc oc hf lines 0 ⟨[], [], 0, 0⟩).cur)⟩,
        List.mem_append_right _ (List.mem_singleton_self _), ?_, ?_⟩
      · show (chunkLoop mc oc hf lines 0 ⟨[], [], 0, 0⟩).startLine ≤ j
        omega
      · show j ≤ lines.length - 1
        omega
  · exact ⟨_, List.getLast?_concat _, rfl⟩

/-- The loop invariant needed for the overlap-budget claim: successive
emitted chunks share lines within budget, and the character total of the
interval from the current buffer start back to the last emitted chunk's end
is within `overlap_chars` (because that stretch is exactly the retained
overlap seed). -/
structure OvInv (lines : List String) (oc : Nat) (i : Nat) (s : CState) : Prop where
  hlen : s.startLine + s.cur.length = i
  hslice : lines.drop s.startLine = s.cur ++ lines.drop i
  hle : i ≤ lines.length
  hchain : List.Chain' (fun c c2 => overlapCost lines c c2 ≤ oc) s.chunks
  hlast : ∀ c, s.chunks.getLast? = some c →
    sliceCost lines s.startLine c.end_line ≤ oc

theorem chunkStep_ov (mc oc : Nat) (hf : String → String) (lines : List String)
    (i : Nat) (l : String) (hl : lines.drop i = l :: lines.drop (i + 1))
    (s : CState) (hinv : OvInv lines oc i s) :
    OvInv lines oc (i + 1) (chunkStep mc oc hf i l s) := by
  obtain ⟨hlen, hslice, hle, hchain, hlast⟩ := hinv
  have hil : i < lines.length := by
    by_contra hge
    rw [List.drop_eq_nil_of_le (by omega)] at hl
    cases hl
  unfold chunkStep
  by_cases hcond : s.curChars + (l.length + 1) > mc ∧ s.cur ≠ []
  · rw [if_pos hcond]
    obtain ⟨pre, hpre, htot, hbound⟩ := takeOverlap_spec oc s.cur
    obtain ⟨hb1, hb2, hb3⟩ := seed_slice oc lines i s hlen hslice
    have hi1 : 1 ≤ i := by
      cases hc : s.cur with
      | nil => exact absurd hc hcond.2
      | cons a b =>
        rw [hc] at hlen
        simp only [List.length_cons] at hlen
        omega
    have hseedcost : sliceCost lines (i - (takeOverlap oc s.cur).1.length) (i - 1) ≤ oc := by
      have hsl := sliceCost_of_slice lines (takeOverlap oc s.cur).1
        (i - (takeOverlap oc s.cur).1.length)
        (by rw [hb2]; exact hb3) (by omega) (by omega)
      rw [show (i - (takeOverlap oc s.cur).1.length) +
        (takeOverlap oc s.cur).1.length - 1 = i - 1 by omega] at hsl
      rw [hsl, ← htot]
      exact hbound
    constructor
    · show (i - (takeOverlap oc s.cur).1.length) +
        ((takeOverlap oc s.cur).1 ++ [l]).length = i + 1
      rw [List.length_append]
      simp only [List.length_singleton]
      omega
    · show lines.drop (i - (takeOverlap oc s.cur).1.length) =
        ((takeOverlap oc s.cur).1 ++ [l]) ++ lines.drop (i + 1)
      rw [hb3, hl, List.append_assoc]
      rfl
    · show i + 1 ≤ lines.length
      omega
    · show List.Chain' (fun c c2 => overlapCost lines c c2 ≤ oc)
        (if hasNonWs (joinLines s.cur) then
          s.chunks ++ [⟨joinLines s.cur, s.startLine, i - 1, hf (joinLines s.cur)⟩]
        else s.chunks)
      by_cases hnbc : hasNonWs (joinLines s.cur) = true
      · rw [if_pos hnbc, List.chain'_append]
        refine ⟨hchain, by simp, fun x hx y hy => ?_⟩
        simp only [List.head?_cons, Option.mem_def, Option.some.injEq] at hy
        subst hy
        refine le_trans ?_ (hlast x hx)
        exact sliceCost_mono lines (le_max_right _ _) (min_le_left _ _)
      · rw [if_neg hnbc]
        exact hchain
    · show ∀ c, (if hasNonWs (joinLines s.cur) then
          s.chunks ++ [⟨joinLines s.cur, s.startLine, i - 1, hf (joinLines s.cur)⟩]
        else s.chunks).getLast? = some c →
        sliceCost lines (i - (takeOverlap oc s.cur).1.length) c.end_line ≤ oc
      intro c hc
      by_cases hnbc : hasNonWs (joinLines s.cur) = true
      · rw [if_pos hnbc, List.getLast?_concat] at hc
        obtain rfl := Option.some.inj hc
        exact hseedcost
      · rw [if_neg hnbc] at hc
        calc sliceCost lines (i - (takeOverlap oc s.cur).1.length) c.end_line ≤
            sliceCost lines s.startLine c.end_line :=
              sliceCost_mono lines hb1 (le_refl _)
          _ ≤ oc := hlast c hc
  · rw [if_neg hcond]
    refine ⟨?_, ?_, by omega, hchain, hlast⟩
    · show s.startLine + (s.cur ++ [l]).length = i + 1
      rw [List.length_append]
      simp only [List.length_singleton]
      omega
    · show lines.drop s.startLine = (s.cur ++ [l]) ++ lines.drop (i + 1)
      rw [hslice, hl, List.append_assoc]
      rfl

/-- The overlap budget bound at the level of the loop + flush pipeline. -/
theorem chunkPipeline_chain (mc oc : Nat) (hf : String → String)
    (lines : List String) :
    List.Chain' (fun c c2 => overlapCost lines c c2 ≤ oc)
      (chunkFlush hf lines.length (chunkLoop mc oc hf lines 0 ⟨[], [], 0, 0⟩)) := by
  have hinv0 : OvInv lines oc 0 ⟨[], [], 0, 0⟩ :=
    ⟨rfl, by simp, Nat.zero_le _, List.chain'_nil, fun c hc => by cases hc⟩
  have hfin : OvInv lines oc lines.length (chunkLoop mc oc hf lines 0 ⟨[], [], 0, 0⟩) :=
    chunkLoop_inv mc oc hf lines (OvInv lines oc)
      (fun i l s hl hinv => chunkStep_ov mc oc hf lines i l hl s hinv)
      (fun _ _ hinv => hinv.hle) lines 0 ⟨[], [], 0, 0⟩ (by simp) hinv0
  obtain ⟨hlen, hslice, hle, hchain, hlast⟩ := hfin
  unfold chunkFlush
  by_cases hcne : (chunkLoop mc oc hf lines 0 ⟨[], [], 0, 0⟩).cur ≠ []
  · rw [if_pos hcne]
    by_cases hnbf : hasNonWs (joinLines (chunkLoop mc oc hf lines 0 ⟨[], [], 0, 0⟩).cur) = true
    · rw [if_pos hnbf, List.chain'_append]
      refine ⟨hchain, by simp, fun x hx y hy => ?_⟩
      simp only [List.head?_cons, Option.mem_def, Option.some.injEq] at hy
      subst hy
      refine le_trans ?_ (hlast x hx)
      exact sliceCost_mono lines (le_max_right _ _) (min_le_left _ _)
    · rw [if_neg hnbf]
      exact hchain
  · rw [if_neg hcne]
    exact hchain

/-- C8: adjacent chunks returned by `chunk_markdown` share lines only within
the overlap budget: the total character count (length plus newline) of the
lines in the intersection of their ranges is at most
`overlap_chars = max(0, overlap_tokens*4)`, because the seed retained at
each boundary accumulates at most `overlap_chars` characters. -/
theorem chunk_markdown_overlap_budget (content : String) (mt ot : ℤ)
    (hf : String → String) :
    List.Chain'
      (fun c c2 => overlapCost (pyLines content) c c2 ≤ (max 0 (ot * 4)).toNat)
      (chunk_markdown content mt ot hf) := by
  rw [chunk_markdown_eq]
  exact chunkPipeline_chain (max 32 (mt * 4)).toNat (max 0 (ot * 4)).toNat hf
    (pyLines content)

/-- Counterexample to C2 as stated: for the two-line document consisting of
a 31-character line followed by an empty line (with `max_tokens = 1`,
`overlap_tokens = 0`), the final buffer is the whitespace-only line 1, whose
chunk is dropped by the `chunk_text.strip()` check: only `[(0, 0)]` is
returned, line 1 is covered by no chunk, and the last chunk's `end_line` is
`0`, not the last line index `1`. -/
theorem chunk_coverage_counterexample :
    ((chunk_markdown "0123456789012345678901234567890\n" 1 0 id).map
      (fun c => (c.start_line, c.end_line)) = [(0, 0)]) ∧
    (pyLines "0123456789012345678901234567890\n").length = 2 ∧
    ¬ (∀ j, j < (pyLines "0123456789012345678901234567890\n").length →
        ∃ c ∈ chunk_markdown "0123456789012345678901234567890\n" 1 0 id,
          c.start_line ≤ j ∧ j ≤ c.end_line) ∧
    ((chunk_markdown "0123456789012345678901234567890\n" 1 0 id).getLast?).map
        (fun c => c.end_line) = some 0 ∧
    (pyLines "0123456789012345678901234567890\n").length - 1 = 1 := by
  decide

/-- C2 (amended): provided every line of the document contains a
non-whitespace character, the union of the returned chunks' line ranges
covers every line index of the source document, and the last returned
chunk's `end_line` equals the document's last line index. (The unamended
claim fails on documents with whitespace-only lines: buffers whose stripped
text is empty are dropped, see the counterexample.) -/
theorem chunk_markdown_coverage (content : String) (mt ot : ℤ)
    (hf : String → String)
    (hnb : ∀ x ∈ pyLines content, hasNonWs x = true) :
    (∀ j, j < (pyLines content).length →
      ∃ c ∈ chunk_markdown content mt ot hf, c.start_line ≤ j ∧ j ≤ c.end_line) ∧
    ∃ c, (chunk_markdown content mt ot hf).getLast? = some c ∧
      c.end_line = (pyLines content).length - 1 := by
  rw [chunk_markdown_eq]
  exact chunkPipeline_coverage (max 32 (mt * 4)).toNat (max 0 (ot * 4)).toNat hf
    (pyLines content) (pyLines_ne_nil content) hnb

/-- Witness for C2 (amended): the two-line document `"ab\ncd"` has no blank
line; its chunks cover lines 0 and 1 and the last chunk ends at line 1. -/
theorem chunk_markdown_coverage_witness :
    (∀ j, j < (pyLines "ab\ncd").length →
      ∃ c ∈ chunk_markdown "ab\ncd" 400 80 id, c.start_line ≤ j ∧ j ≤ c.end_line) ∧
    ∃ c, (chunk_markdown "ab\ncd" 400 80 id).getLast? = some c ∧
      c.end_line = (pyLines "ab\ncd").length - 1 :=
  chunk_markdown_coverage "ab\ncd" 400 80 id (by decide)

/-! ## Helper lemmas on the search pipeline -/

instance : IsTotal SearchResult (fun a b => b.score ≤ a.score) :=
  ⟨fun a b => le_total b.score a.score⟩

instance : IsTrans SearchResult (fun a b => b.score ≤ a.score) :=
  ⟨fun _ _ _ h1 h2 => le_trans h2 h1⟩

theorem mem_sortByScoreDesc {r : SearchResult} {l : List SearchResult} :
    r ∈ sortByScoreDesc l ↔ r ∈ l :=
  (List.perm_insertionSort _ l).mem_iff

theorem sorted_sortByScoreDesc (l : List SearchResult) :
    List.Sorted (fun a b => b.score ≤ a.score) (sortByScoreDesc l) :=
  List.sorted_insertionSort _ l

theorem mem_merge_and_rank {r : SearchResult} {vr kr : List SearchResult}
    {mr : Nat} {ms vw tw : ℝ} (h : r ∈ merge_and_rank vr kr mr ms vw tw) :
    ∃ y : SearchResult,
      r = { y with score := vw * y.vector_score.getD 0 + tw * y.text_score.getD 0 } ∧
      ms ≤ r.score := by
  unfold merge_and_rank at h
  have h1 := List.take_subset _ _ h
  rw [mem_sortByScoreDesc, List.mem_filter] at h1
  obtain ⟨h2, h3⟩ := h1
  obtain ⟨y, _, rfl⟩ := List.mem_map.mp h2
  exact ⟨y, rfl, of_decide_eq_true h3⟩

theorem normList_unit : normList [(1:ℝ), 0] = 1 := by
  show Real.sqrt (((1:ℝ) * 1) + ((0:ℝ) * 0 + 0)) = 1
  norm_num

theorem normList_unit2 : normList [(0:ℝ), 1] = 1 := by
  show Real.sqrt (((0:ℝ) * 0) + ((1:ℝ) * 1 + 0)) = 1
  norm_num

theorem normList_negUnit : normList [(-1:ℝ), 0] = 1 := by
  show Real.sqrt (((-1:ℝ) * -1) + ((0:ℝ) * 0 + 0)) = 1
  norm_num

theorem normList_zero : normList [(0:ℝ), 0] = 0 := by
  show Real.sqrt (((0:ℝ) * 0) + ((0:ℝ) * 0 + 0)) = 0
  norm_num

theorem cosine_orth : cosine_similarity [1, 0] [0, 1] = 0 := by
  unfold cosine_similarity
  rw [normList_unit, normList_unit2]
  norm_num [dotList]

theorem cosine_self_unit : cosine_similarity [1, 0] [1, 0] = 1 := by
  unfold cosine_similarity
  rw [normList_unit]
  norm_num [dotList]

theorem cosine_zero_norm : cosine_similarity [0, 0] [1, 0] = 0 := by
  unfold cosine_similarity
  rw [normList_zero, normList_unit]
  norm_num

theorem cosine_opposite : cosine_similarity [1, 0] [-1, 0] = -1 := by
  unfold cosine_similarity
  rw [normList_unit, normList_negUnit]
  norm_num [dotList]

/-- C9: `cosine_similarity([1,0],[0,1]) = 0.0`, `cosine_similarity([1,0],[1,0])
= 1.0`, and `cosine_similarity([0,0],[1,0]) = 0.0`: orthogonal vectors score
zero, identical unit vectors score one, and a zero-norm input returns 0
instead of dividing by zero. -/
theorem cosine_similarity_scenarios :
    cosine_similarity [1, 0] [0, 1] = 0 ∧
    cosine_similarity [1, 0] [1, 0] = 1 ∧
    cosine_similarity [0, 0] [1, 0] = 0 :=
  ⟨cosine_orth, cosine_self_unit, cosine_zero_norm⟩

/-- C1: every result of `hybrid_search` carries the composite score
`vector_weight * vector_score + text_weight * text_score`, a phase the chunk
did not appear in contributing 0 (`Option.getD 0`, as Python's `x or 0.0`
evaluates for `None`). -/
theorem hybrid_search_composite_score (db : SearchDb) (qe : List ℝ)
    (qt model : String) (mr : Nat) (ms vw tw : ℝ) (cm : Nat) (r : SearchResult)
    (hr : r ∈ hybrid_search db qe qt model mr ms vw tw cm) :
    r.score = vw * r.vector_score.getD 0 + tw * r.text_score.getD 0 := by
  unfold hybrid_search at hr
  obtain ⟨y, rfl, -⟩ := mem_merge_and_rank hr
  rfl

/-- C5: every result of `hybrid_search` scores at least `min_score`, the
output is sorted in descending order of composite score, and at most
`max_results` results are returned. -/
theorem hybrid_search_rank_contract (db : SearchDb) (qe : List ℝ)
    (qt model : String) (mr : Nat) (ms vw tw : ℝ) (cm : Nat) :
    (∀ r ∈ hybrid_search db qe qt model mr ms vw tw cm, ms ≤ r.score) ∧
    List.Sorted (fun a b => b.score ≤ a.score) (hybrid_search db qe qt model mr ms vw tw cm) ∧
    (hybrid_search db qe qt model mr ms vw tw cm).length ≤ mr := by
  refine ⟨fun r hr => ?_, ?_, ?_⟩
  · obtain ⟨y, -, hge⟩ := mem_merge_and_rank hr
    exact hge
  · exact List.Pairwise.sublist (List.take_sublist _ _) (sorted_sortByScoreDesc _)
  · exact List.length_take_le _ _

/-- C7: a query tokenizing to no word tokens, or a lexical query the store
rejects, makes the lexical phase return `[]`, and `hybrid_search` then
degrades to ranking the vector phase alone. -/
theorem lexical_phase_degrades (db : SearchDb) (q model : String) (limit : Nat)
    (qe : List ℝ) (mr : Nat) (ms vw tw : ℝ) (cm : Nat) :
    (findWords q = [] → search_keyword db q model limit = []) ∧
    (db.ftsMatch (build_fts_query q) model limit = .error () →
      search_keyword db q model limit = []) ∧
    ((findWords q = [] ∨ db.ftsMatch (build_fts_query q) model (mr * cm) = .error ()) →
      hybrid_search db qe q model mr ms vw tw cm =
        merge_and_rank (search_vector db qe model (mr * cm)) [] mr ms vw tw) := by
  have hempty : findWords q = [] → build_fts_query q = "" := by
    intro h
    unfold build_fts_query
    rw [h]
  have hkw : ∀ lim, findWords q = [] ∨ db.ftsMatch (build_fts_query q) model lim = .error () →
      search_keyword db q model lim = [] := by
    intro lim h
    unfold search_keyword
    rcases h with h | h
    · rw [hempty h]
      simp
    · by_cases hq : build_fts_query q = ""
      · simp [hq]
      · simp only [if_neg hq, h]
  refine ⟨fun h => hkw limit (Or.inl h), fun h => hkw limit (Or.inr h), fun h => ?_⟩
  show merge_and_rank (search_vector db qe model (mr * cm))
      (search_keyword db q model (mr * cm)) mr ms vw tw = _
  rw [hkw (mr * cm) h]

/-! ## Concrete databases used to instantiate the search theorems -/

/-- An empty database whose FTS oracle rejects every query. -/
def dbEmpty : SearchDb := ⟨[], fun _ _ _ => .error ()⟩

/-- A one-chunk database whose only embedding is the unit vector `[1,0]`,
with an FTS oracle that matches nothing. -/
noncomputable def dbUnit : SearchDb :=
  ⟨[⟨"c1", "p", 0, 0, "m", "t", [1, 0]⟩], fun _ _ _ => .ok []⟩

/-- A one-chunk database whose only embedding is `[-1,0]`, opposite to the
query vector `[1,0]`, with an FTS oracle that matches nothing. -/
noncomputable def dbNeg : SearchDb :=
  ⟨[⟨"c1", "p", 0, 0, "m", "t", [-1, 0]⟩], fun _ _ _ => .ok []⟩

theorem search_vector_dbUnit :
    search_vector dbUnit [1, 0] "m" 24 =
      [⟨"c1", "p", 0, 0, "t", 1, some 1, none⟩] := by
  unfold search_vector dbUnit
  simp [List.filter, sortByScoreDesc, List.insertionSort, List.orderedInsert,
    cosine_self_unit]

theorem search_keyword_qq (db : SearchDb) (h : db.ftsMatch "\"q\"" "m" 24 = .ok []) :
    search_keyword db "q" "m" 24 = [] := by
  unfold search_keyword
  have hq : build_fts_query "q" = "\"q\"" := by decide
  rw [hq]
  simp [h]

theorem hybrid_search_dbUnit :
    hybrid_search dbUnit [1, 0] "q" "m" 6 0 0.7 0.3 4 =
      [⟨"c1", "p", 0, 0, "t", 0.7 * 1 + 0.3 * 0, some 1, none⟩] := by
  show merge_and_rank (search_vector dbUnit [1, 0] "m" 24)
      (search_keyword dbUnit "q" "m" 24) 6 0 0.7 0.3 = _
  rw [search_vector_dbUnit, search_keyword_qq dbUnit rfl]
  unfold merge_and_rank
  have hpos : (0:ℝ) ≤ 0.7 * 1 + 0.3 * 0 := by norm_num
  simp only [List.foldl_cons, List.foldl_nil, insertVec, vecEntry, List.any_nil,
    Bool.false_eq_true, if_false, List.nil_append, List.map_cons, List.map_nil,
    Option.getD_some, Option.getD_none, List.filter_cons, List.filter_nil,
    decide_eq_true_eq, hpos, if_true, sortByScoreDesc, List.insertionSort,
    List.orderedInsert, List.take_succ_cons, List.take_nil]

theorem search_vector_dbNeg :
    search_vector dbNeg [1, 0] "m" 24 =
      [⟨"c1", "p", 0, 0, "t", -1, some (-1), none⟩] := by
  unfold search_vector dbNeg
  simp [List.filter, sortByScoreDesc, List.insertionSort, List.orderedInsert,
    cosine_opposite]

theorem hybrid_search_dbNeg_low :
    hybrid_search dbNeg [1, 0] "q" "m" 6 (-1) 0.7 0.3 4 =
      [⟨"c1", "p", 0, 0, "t", 0.7 * -1 + 0.3 * 0, some (-1), none⟩] := by
  show merge_and_rank (search_vector dbNeg [1, 0] "m" 24)
      (search_keyword dbNeg "q" "m" 24) 6 (-1) 0.7 0.3 = _
  rw [search_vector_dbNeg, search_keyword_qq dbNeg rfl]
  unfold merge_and_rank
  have hpos : (-1:ℝ) ≤ 0.7 * -1 + 0.3 * 0 := by norm_num
  simp only [List.foldl_cons, List.foldl_nil, insertVec, vecEntry, List.any_nil,
    Bool.false_eq_true, if_false, List.nil_append, List.map_cons, List.map_nil,
    Option.getD_some, Option.getD_none, List.filter_cons, List.filter_nil,
    decide_eq_true_eq, hpos, if_true, sortByScoreDesc, List.insertionSort,
    List.orderedInsert, List.take_succ_cons, List.take_nil]

theorem hybrid_search_dbNeg_threshold :
    hybrid_search dbNeg [1, 0] "q" "m" 6 0.35 0.7 0.3 4 = [] := by
  show merge_and_rank (search_vector dbNeg [1, 0] "m" 24)
      (search_keyword dbNeg "q" "m" 24) 6 0.35 0.7 0.3 = _
  rw [search_vector_dbNeg, search_keyword_qq dbNeg rfl]
  unfold merge_and_rank
  have hlt : ¬ ((0.35:ℝ) ≤ 0.7 * -1 + 0.3 * 0) := by norm_num
  simp only [List.foldl_cons, List.foldl_nil, insertVec, vecEntry, List.any_nil,
    Bool.false_eq_true, if_false, List.nil_append, List.map_cons, List.map_nil,
    Option.getD_some, Option.getD_none, List.filter_cons, List.filter_nil,
    decide_eq_true_eq, hlt, sortByScoreDesc, List.insertionSort,
    List.orderedInsert, List.take_nil]

/-- C10: vector similarity is not clamped to `0..1`: `cosine_similarity([1,0],
[-1,0]) = -1.0`, a chunk's vector score in `search_vector` can be `-1`, its
composite score in `hybrid_search` is then `0.7 * -1 + 0.3 * 0 < 0`, and the
chunk is excluded only when `min_score` (here `0.35`) exceeds that composite,
not by any clamping step. -/
theorem cosine_similarity_unclamped_negative :
    cosine_similarity [1, 0] [-1, 0] = -1 ∧
    search_vector dbNeg [1, 0] "m" 24 =
      [⟨"c1", "p", 0, 0, "t", -1, some (-1), none⟩] ∧
    hybrid_search dbNeg [1, 0] "q" "m" 6 (-1) 0.7 0.3 4 =
      [⟨"c1", "p", 0, 0, "t", 0.7 * -1 + 0.3 * 0, some (-1), none⟩] ∧
    (0.7 * -1 + 0.3 * 0 : ℝ) < 0 ∧
    hybrid_search dbNeg [1, 0] "q" "m" 6 0.35 0.7 0.3 4 = [] :=
  ⟨cosine_opposite, search_vector_dbNeg, hybrid_search_dbNeg_low,
    by norm_num, hybrid_search_dbNeg_threshold⟩

/-- Witness for C1: in the one-chunk unit-vector database the single result
scores `0.7 * 1 + 0.3 * 0 = 0.7` — a chunk with vector score `1.0` and no
lexical match, scored through the composite formula. -/
theorem hybrid_search_composite_score_witness :
    (⟨"c1", "p", 0, 0, "t", 0.7 * 1 + 0.3 * 0, some 1, none⟩ : SearchResult).score =
      0.7 * (Option.getD (some 1) 0) + 0.3 * (Option.getD (none : Option ℝ) 0) :=
  hybrid_search_composite_score dbUnit [1, 0] "q" "m" 6 0 0.7 0.3 4 _
    (by rw [hybrid_search_dbUnit]; exact List.mem_singleton_self _)

/-! ## Indexer lemmas -/

theorem find_map_replace (row : FileRow) : ∀ (files : List FileRow),
    (∃ f ∈ files, f.path = row.path) →
    List.find? (fun f => f.path = row.path)
      (files.map (fun f => if f.path = row.path then row else f)) = some row
  | [], h => absurd h (by simp)
  | f :: fs, h => by
    by_cases hf : f.path = row.path
    · rw [List.map_cons, if_pos hf, List.find?_cons_of_pos]
      simp
    · rw [List.map_cons, if_neg hf, List.find?_cons_of_neg]
      · apply find_map_replace row fs
        rcases h with ⟨g, hg, hgp⟩
        rcases List.mem_cons.mp hg with rfl | hg2
        · exact absurd hgp hf
        · exact ⟨g, hg2, hgp⟩
      · simp [hf]

theorem find_upsertFileRow (files : List FileRow) (row : FileRow) :
    List.find? (fun f => f.path = row.path) (upsertFileRow files row) = some row := by
  unfold upsertFileRow
  split
  next h =>
    apply find_map_replace
    simpa using h
  next h =>
    have hnone : List.find? (fun f => f.path = row.path) files = none := by
      apply List.find?_eq_none.mpr
      intro f hf
      simp only [decide_eq_true_eq]
      intro hfp
      exact h (List.any_eq_true.mpr ⟨f, hf, by simp [hfp]⟩)
    rw [List.find?_append, hnone]
    simp [List.find?_cons_of_pos]

/-! ## Store invariant lemmas for the indexer -/

theorem mem_insertChunkRow {c : StoredChunk} {acc : List StoredChunk}
    {r : StoredChunk} (h : c ∈ insertChunkRow acc r) : c ∈ acc ∨ c = r := by
  unfold insertChunkRow at h
  split at h
  · obtain ⟨x, hx, hxc⟩ := List.mem_map.mp h
    by_cases hxr : x.id = r.id
    · rw [if_pos hxr] at hxc
      exact Or.inr hxc.symm
    · rw [if_neg hxr] at hxc
      exact Or.inl (hxc ▸ hx)
  · rcases List.mem_append.mp h with h1 | h1
    · exact Or.inl h1
    · exact Or.inr (List.mem_singleton.mp h1)

theorem insertChunkRow_append (p : String) (L B : List StoredChunk)
    (r : StoredChunk) (hL : ∀ c ∈ L, c.id.path ≠ p) (hr : r.id.path = p) :
    insertChunkRow (L ++ B) r = L ++ insertChunkRow B r := by
  have hnoL : ∀ c ∈ L, ¬ (c.id = r.id) := by
    intro c hc he
    exact hL c hc (by rw [he, hr])
  have hLfalse : (L.any fun c => c.id = r.id) = false := by
    rw [List.any_eq_false]
    intro c hc
    simpa using hnoL c hc
  have hmapL : L.map (fun c => if c.id = r.id then r else c) = L := by
    conv_rhs => rw [← List.map_id L]
    apply List.map_congr_left
    intro c hc
    rw [if_neg (hnoL c hc)]
    rfl
  simp only [insertChunkRow, List.any_append, hLfalse, Bool.false_or]
  by_cases hB : (B.any fun c => c.id = r.id) = true
  · rw [if_pos hB, if_pos hB, List.map_append, hmapL]
  · rw [if_neg hB, if_neg hB, List.append_assoc]

theorem foldl_insertChunkRow_append (p model : String) (now : ℤ)
    (prs : List (Chunk × List ℝ)) :
    ∀ (L B : List StoredChunk), (∀ c ∈ L, c.id.path ≠ p) →
    prs.foldl (fun acc pr => insertChunkRow acc (mkChunkRow p model now pr.1 pr.2))
        (L ++ B) =
      L ++ prs.foldl (fun acc pr => insertChunkRow acc (mkChunkRow p model now pr.1 pr.2)) B := by
  induction prs with
  | nil => intro L B _; rfl
  | cons pr t ih =>
    intro L B hL
    rw [List.foldl_cons, List.foldl_cons,
      insertChunkRow_append p L B (mkChunkRow p model now pr.1 pr.2) hL rfl]
    exact ih L _ hL

theorem foldl_insertChunkRow_mem (p model : String) (now : ℤ)
    (prs : List (Chunk × List ℝ)) :
    ∀ (acc : List StoredChunk) (c : StoredChunk),
    c ∈ prs.foldl (fun acc pr => insertChunkRow acc (mkChunkRow p model now pr.1 pr.2)) acc →
    c ∈ acc ∨ ∃ pr : Chunk × List ℝ, c = mkChunkRow p model now pr.1 pr.2 := by
  induction prs with
  | nil => intro acc c hc; exact Or.inl hc
  | cons pr t ih =>
    intro acc c hc
    rw [List.foldl_cons] at hc
    rcases ih _ c hc with h1 | h1
    · rcases mem_insertChunkRow h1 with h2 | h2
      · exact Or.inl h2
      · exact Or.inr ⟨pr, h2⟩
    · exact Or.inr h1

theorem insertRows_chunks (p model : String) (now : ℤ)
    (prs : List (Chunk × List ℝ)) : ∀ (st : Store),
    (insertRows st p model now prs).chunks =
      prs.foldl (fun acc pr => insertChunkRow acc (mkChunkRow p model now pr.1 pr.2))
        st.chunks := by
  induction prs with
  | nil => intro st; rfl
  | cons pr t ih => intro st; exact ih _

theorem insertRows_fts (p model : String) (now : ℤ)
    (prs : List (Chunk × List ℝ)) : ∀ (st : Store),
    (insertRows st p model now prs).fts = st.fts ++ writtenFts p model prs := by
  induction prs with
  | nil => intro st; simp [insertRows, writtenFts]
  | cons pr t ih =>
    intro st
    rw [show insertRows st p model now (pr :: t) =
      insertRows
        { files := st.files,
          chunks := insertChunkRow st.chunks (mkChunkRow p model now pr.1 pr.2),
          fts := st.fts ++ [mkFtsRow p model pr.1] } p model now t from rfl, ih]
    simp [writtenFts]

theorem insertRows_files (p model : String) (now : ℤ)
    (prs : List (Chunk × List ℝ)) : ∀ (st : Store),
    (insertRows st p model now prs).files = st.files := by
  induction prs with
  | nil => intro st; rfl
  | cons pr t ih => intro st; exact ih _

theorem find_upsertFileRow_path (files : List FileRow) (row : FileRow) (p : String)
    (hp : row.path = p) :
    List.find? (fun f => f.path = p) (upsertFileRow files row) = some row := by
  subst hp
  exact find_upsertFileRow files row

theorem find_map_other (row : FileRow) (q : String) (hq : ¬ (row.path = q)) :
    ∀ files : List FileRow,
      List.find? (fun f => f.path = q)
        (files.map (fun f => if f.path = row.path then row else f)) =
      List.find? (fun f => f.path = q) files
  | [] => rfl
  | f :: fs => by
    rw [List.map_cons]
    by_cases hf : f.path = row.path
    · rw [if_pos hf, List.find?_cons_of_neg, List.find?_cons_of_neg]
      · exact find_map_other row q hq fs
      · simp only [decide_eq_true_eq]
        rw [hf]
        exact hq
      · simpa using hq
    · rw [if_neg hf]
      by_cases hfq : f.path = q
      · rw [List.find?_cons_of_pos _ (by simpa using hfq),
          List.find?_cons_of_pos _ (by simpa using hfq)]
      · rw [List.find?_cons_of_neg _ (by simpa using hfq),
          List.find?_cons_of_neg _ (by simpa using hfq)]
        exact find_map_other row q hq fs

theorem find_upsertFileRow_other (files : List FileRow) (row : FileRow)
    (q : String) (hq : ¬ (row.path = q)) :
    List.find? (fun f => f.path = q) (upsertFileRow files row) =
      List.find? (fun f => f.path = q) files := by
  unfold upsertFileRow
  split
  · exact find_map_other row q hq files
  · rw [List.find?_append]
    have : List.find? (fun f => f.path = q) [row] = none := by
      simp [List.find?, hq]
    rw [this]
    cases List.find? (fun f => f.path = q) files <;> rfl

theorem StoreInv_emptyStore (model : String) : StoreInv model emptyStore :=
  ⟨fun c hc => absurd hc (List.not_mem_nil c), fun _ => ⟨rfl, rfl⟩⟩

/-- The heart of the no-orphans invariant: after `index_file`'s
delete-then-insert write of path `p` with content `fd.content`, the store
invariant holds again. -/
theorem write_preserves_inv (model : String) (st st3 : Store)
    (hinv : StoreInv model st) (p : String) (fd : FileData) (mt ot now : ℤ)
    (embs : List (List ℝ))
    (hcs : chunk_markdown fd.content mt ot id ≠ [])
    (hchunks : st3.chunks =
      st.chunks.filter (fun c => c.path ≠ p) ++
        writtenChunks p model now ((chunk_markdown fd.content mt ot id).zip embs))
    (hfts : st3.fts =
      st.fts.filter (fun r => r.path ≠ p) ++
        writtenFts p model ((chunk_markdown fd.content mt ot id).zip embs))
    (hfiles : st3.files = upsertFileRow st.files ⟨p, fd.content, fd.mtime, fd.size⟩) :
    StoreInv model st3 := by
  obtain ⟨hwf, hpe⟩ := hinv
  have hBP : ∀ c ∈ writtenChunks p model now
      ((chunk_markdown fd.content mt ot id).zip embs),
      c.path = p ∧ c.id = ⟨c.path, c.start_line, c.end_line, c.hash, c.model⟩ := by
    intro c hc
    rcases foldl_insertChunkRow_mem p model now _ [] c hc with h | ⟨pr, rfl⟩
    · cases h
    · exact ⟨rfl, rfl⟩
  have hFP : ∀ r ∈ writtenFts p model
      ((chunk_markdown fd.content mt ot id).zip embs), r.path = p := by
    intro r hr
    obtain ⟨pr, -, rfl⟩ := List.mem_map.mp hr
    rfl
  constructor
  · intro c hc
    rw [hchunks] at hc
    rcases List.mem_append.mp hc with h | h
    · exact hwf c (List.mem_of_mem_filter h)
    · exact (hBP c h).2
  · intro q
    by_cases hq : q = p
    · subst hq
      unfold PathExact
      have hlook : lookupFile st3 q = some ⟨q, fd.content, fd.mtime, fd.size⟩ := by
        unfold lookupFile
        rw [hfiles]
        exact find_upsertFileRow_path _ _ q rfl
      rw [hlook]
      refine ⟨fd.content, mt, ot, now, embs, rfl, hcs, ?_, ?_⟩
      · unfold chunksFor
        rw [hchunks, List.filter_append]
        have h1 : (st.chunks.filter (fun c => c.path ≠ q)).filter
            (fun c => c.path = q) = [] := by
          rw [List.filter_eq_nil_iff]
          intro c hc
          have := List.of_mem_filter hc
          simp only [decide_eq_true_eq] at this ⊢
          exact this
        have h2 : (writtenChunks q model now
            ((chunk_markdown fd.content mt ot id).zip embs)).filter
            (fun c => c.path = q) = writtenChunks q model now
            ((chunk_markdown fd.content mt ot id).zip embs) := by
          rw [List.filter_eq_self]
          intro c hc
          simp [(hBP c hc).1]
        rw [h1, h2, List.nil_append]
      · unfold ftsFor
        rw [hfts, List.filter_append]
        have h1 : (st.fts.filter (fun r => r.path ≠ q)).filter
            (fun r => r.path = q) = [] := by
          rw [List.filter_eq_nil_iff]
          intro r hr
          have := List.of_mem_filter hr
          simp only [decide_eq_true_eq] at this ⊢
          exact this
        have h2 : (writtenFts q model
            ((chunk_markdown fd.content mt ot id).zip embs)).filter
            (fun r => r.path = q) = writtenFts q model
            ((chunk_markdown fd.content mt ot id).zip embs) := by
          rw [List.filter_eq_self]
          intro r hr
          simp [hFP r hr]
        rw [h1, h2, List.nil_append]
    · have hlook : lookupFile st3 q = lookupFile st q := by
        unfold lookupFile
        rw [hfiles]
        exact find_upsertFileRow_other st.files _ q (fun h => hq (by simpa using h.symm))
      have hcf : chunksFor st3 q = chunksFor st q := by
        unfold chunksFor
        rw [hchunks, List.filter_append]
        have h2 : (writtenChunks p model now
            ((chunk_markdown fd.content mt ot id).zip embs)).filter
            (fun c => c.path = q) = [] := by
          rw [List.filter_eq_nil_iff]
          intro c hc
          simp only [decide_eq_true_eq]
          rw [(hBP c hc).1]
          exact fun h => hq h.symm
        rw [h2, List.append_nil, List.filter_filter]
        apply List.filter_congr
        intro c _
        by_cases hcq : c.path = q
        · have hcp : c.path ≠ p := by
            rw [hcq]
            exact hq
          simp [hcq, hcp, hq]
        · simp [hcq]
      have hff : ftsFor st3 q = ftsFor st q := by
        unfold ftsFor
        rw [hfts, List.filter_append]
        have h2 : (writtenFts p model
            ((chunk_markdown fd.content mt ot id).zip embs)).filter
            (fun r => r.path = q) = [] := by
          rw [List.filter_eq_nil_iff]
          intro r hr
          simp only [decide_eq_true_eq]
          rw [hFP r hr]
          exact fun h => hq h.symm
        rw [h2, List.append_nil, List.filter_filter]
        apply List.filter_congr
        intro r _
        by_cases hrq : r.path = q
        · have hrp : r.path ≠ p := by
            rw [hrq]
            exact hq
          simp [hrq, hrp, hq]
        · simp [hrq]
      unfold PathExact
      rw [hlook, hcf, hff]
      have hthis := hpe q
      unfold PathExact at hthis
      exact hthis

theorem index_file_preserves_inv (fs : Fs) (emb : EmbBatch) (model : String)
    (now : ℤ) (st : Store) (p : String) (force : Bool) (mt ot : ℤ)
    (hinv : StoreInv model st) :
    StoreInv model (index_file fs emb model now st p force mt ot).1 := by
  cases hfs : fs p with
  | none =>
    simp only [index_file, hfs]
    exact hinv
  | some fd =>
    simp only [index_file, hfs]
    by_cases hskip : force = false ∧ needsReindex st p fd = false
    · rw [if_pos hskip]
      exact hinv
    · rw [if_neg hskip]
      by_cases hcs : chunk_markdown fd.content mt ot id = []
      · rw [if_pos hcs]
        exact hinv
      · rw [if_neg hcs]
        cases hemb : emb ((chunk_markdown fd.content mt ot id).map (fun c => c.text)) with
        | error e =>
          exact hinv
        | ok embs =>
          apply write_preserves_inv model st _ hinv p fd mt ot now embs hcs
          · show (insertRows
                { st with
                  fts := st.fts.filter (fun r => r.path ≠ p),
                  chunks := st.chunks.filter (fun c => c.path ≠ p) }
                p model now ((chunk_markdown fd.content mt ot id).zip embs)).chunks =
              st.chunks.filter (fun c => c.path ≠ p) ++
                writtenChunks p model now ((chunk_markdown fd.content mt ot id).zip embs)
            rw [insertRows_chunks]
            have hL : ∀ c ∈ st.chunks.filter (fun c => c.path ≠ p), c.id.path ≠ p := by
              intro c hc
              have hmem := List.mem_of_mem_filter hc
              have hpne : c.path ≠ p := by
                have := List.of_mem_filter hc
                simpa using this
              rw [hinv.1 c hmem]
              exact hpne
            have happ := foldl_insertChunkRow_append p model now
              ((chunk_markdown fd.content mt ot id).zip embs)
              (st.chunks.filter (fun c => c.path ≠ p)) [] hL
            rw [List.append_nil] at happ
            exact happ
          · show (insertRows
                { st with
                  fts := st.fts.filter (fun r => r.path ≠ p),
                  chunks := st.chunks.filter (fun c => c.path ≠ p) }
                p model now ((chunk_markdown fd.content mt ot id).zip embs)).fts =
              st.fts.filter (fun r => r.path ≠ p) ++
                writtenFts p model ((chunk_markdown fd.content mt ot id).zip embs)
            rw [insertRows_fts]
          · show upsertFileRow (insertRows
                { st with
                  fts := st.fts.filter (fun r => r.path ≠ p),
                  chunks := st.chunks.filter (fun c => c.path ≠ p) }
                p model now ((chunk_markdown fd.content mt ot id).zip embs)).files
              ⟨p, fd.content, fd.mtime, fd.size⟩ =
              upsertFileRow st.files ⟨p, fd.content, fd.mtime, fd.size⟩
            rw [insertRows_files]

theorem index_directory_go_preserves_inv (fs : Fs) (emb : EmbBatch)
    (model : String) (now : ℤ) (force : Bool) :
    ∀ (paths : List String) (st : Store) (acc : Nat), StoreInv model st →
    StoreInv model (index_directory_go fs emb model now force paths st acc).1 := by
  intro paths
  induction paths with
  | nil =>
    intro st acc hinv
    exact hinv
  | cons p0 ps ih =>
    intro st acc hinv
    have h1 := index_file_preserves_inv fs emb model now st p0 force 400 80 hinv
    rcases hif : index_file fs emb model now st p0 force 400 80 with ⟨st2, r⟩
    rw [hif] at h1
    cases r with
    | ok n =>
      simp only [index_directory_go, hif]
      exact ih st2 (acc + n) h1
    | error e =>
      simp only [index_directory_go, hif]
      exact h1

theorem runOp_preserves_inv (model : String) (st : Store) (o : IndexOp)
    (hinv : StoreInv model st) : StoreInv model (runOp model st o) := by
  cases o with
  | file fs emb now p force mt ot =>
    exact index_file_preserves_inv fs emb model now st p force mt ot hinv
  | dir fs emb now ps force =>
    exact index_directory_go_preserves_inv fs emb model now force ps st 0 hinv

/-- C3: after any sequence of `index_file` / `index_directory` calls on a
manager with a fixed embedding model, starting from a fresh database, the
store invariant holds: every chunk row's id is derived from its own fields,
and for every path the stored chunk and FTS rows are exactly those written
by a single indexing run of the content recorded in that path's file record
(the most recently indexed version) — no chunk of an earlier revision
remains. -/
theorem indexer_no_orphaned_chunks (model : String) (ops : List IndexOp) :
    StoreInv model (runOps model ops) := by
  suffices h : ∀ st, StoreInv model st → StoreInv model (ops.foldl (runOp model) st) by
    exact h emptyStore (StoreInv_emptyStore model)
  induction ops with
  | nil =>
    intro st hinv
    exact hinv
  | cons o t ih =>
    intro st hinv
    rw [List.foldl_cons]
    exact ih _ (runOp_preserves_inv model st o hinv)

/-- C6: if `embed_batch` fails while `index_file` processes an existing file
that needs reindexing (and chunks to a non-empty list), the error propagates
and the database is left exactly as it was: no row of `files`, `chunks` or
`chunks_fts` is touched, because embedding happens before any write. -/
theorem index_file_embed_error_preserves_store (fs : Fs) (emb : EmbBatch)
    (model : String) (now : ℤ) (st : Store) (p : String) (force : Bool)
    (mt ot : ℤ) (fd : FileData) (e : String)
    (hfd : fs p = some fd)
    (hneed : force = true ∨ needsReindex st p fd = true)
    (hchunks : chunk_markdown fd.content mt ot id ≠ [])
    (hemb : emb ((chunk_markdown fd.content mt ot id).map (fun c => c.text)) =
      .error e) :
    index_file fs emb model now st p force mt ot = (st, .error e) := by
  unfold index_file
  have hns : ¬ (force = false ∧ needsReindex st p fd = false) := by
    rcases hneed with h | h <;> simp [h]
  rw [hfd]
  simp only [if_neg hns, if_neg hchunks, hemb]

/-- The filesystem of the C6 witness: a single markdown file. -/
def fsHello : Fs := fun p => if p = "f.md" then some ⟨"hello", 7, 5⟩ else none

/-- An embedding backend whose transport always fails. -/
def embFail : EmbBatch := fun _ => .error "boom"

/-- C4: if `index_file` returns successfully and the file's content is
unchanged, a second call without `force` returns 0 and leaves the store
identical — same rows, hence same chunk ids and chunk count. -/
theorem needsReindex_after_write (st : Store) (p : String) (fd : FileData)
    (files0 : List FileRow)
    (hfiles : st.files = upsertFileRow files0 ⟨p, fd.content, fd.mtime, fd.size⟩) :
    needsReindex st p fd = false := by
  unfold needsReindex lookupFile
  rw [hfiles, find_upsertFileRow_path files0 _ p rfl]
  simp

theorem index_file_idempotent (fs : Fs) (emb : EmbBatch) (model : String)
    (now now2 : ℤ) (st st2 : Store) (p : String) (force : Bool) (mt ot : ℤ)
    (n : Nat)
    (h : index_file fs emb model now st p force mt ot = (st2, .ok n)) :
    index_file fs emb model now2 st2 p false mt ot = (st2, .ok 0) := by
  cases hfs : fs p with
  | none =>
    simp only [index_file, hfs]
  | some fd =>
    simp only [index_file, hfs] at h ⊢
    by_cases hskip : force = false ∧ needsReindex st p fd = false
    · rw [if_pos hskip] at h
      rw [Prod.mk.injEq] at h
      obtain ⟨hst, -⟩ := h
      subst hst
      rw [if_pos ⟨trivial, hskip.2⟩]
    · rw [if_neg hskip] at h
      by_cases hcs : chunk_markdown fd.content mt ot id = []
      · rw [if_pos hcs] at h
        rw [Prod.mk.injEq] at h
        obtain ⟨hst, -⟩ := h
        subst hst
        by_cases hc2 : (True ∧ needsReindex st p fd = false)
        · rw [if_pos hc2]
        · rw [if_neg hc2, if_pos hcs]
      · rw [if_neg hcs] at h
        cases hemb : emb ((chunk_markdown fd.content mt ot id).map (fun c => c.text)) with
        | error e =>
          rw [hemb] at h
          rw [Prod.mk.injEq] at h
          exact absurd h.2 (by simp)
        | ok embeddings =>
          rw [hemb] at h
          rw [Prod.mk.injEq] at h
          obtain ⟨hst, -⟩ := h
          rw [← hst]
          rw [if_pos ⟨trivial, needsReindex_after_write _ p fd _ rfl⟩]

/-- An embedding backend returning the constant vector `[1]` for every
text. -/
noncomputable def embOne : EmbBatch := fun ts => .ok (ts.map (fun _ => [1]))

/-- Witness for C4: after successfully indexing `f.md` once (one chunk
written), an immediate re-index without `force` returns 0 and leaves the
store identical. -/
theorem index_file_idempotent_witness :
    index_file fsHello embOne "m" 7
      (index_file fsHello embOne "m" 0 emptyStore "f.md" false 400 80).1
      "f.md" false 400 80 =
      ((index_file fsHello embOne "m" 0 emptyStore "f.md" false 400 80).1, .ok 0) :=
  index_file_idempotent fsHello embOne "m" 0 7 emptyStore _ "f.md" false 400 80 1 rfl

/-- Witness for C6: indexing `f.md` against the failing backend propagates
the error and leaves the fresh store untouched. -/
theorem index_file_embed_error_witness :
    fsHello "f.md" = some ⟨"hello", 7, 5⟩ ∧
    chunk_markdown "hello" 400 80 id ≠ [] ∧
    index_file fsHello embFail "m" 0 emptyStore "f.md" true 400 80 =
      (emptyStore, .error "boom") := by
  refine ⟨rfl, by decide, ?_⟩
  exact index_file_embed_error_preserves_store fsHello embFail "m" 0 emptyStore
    "f.md" true 400 80 ⟨"hello", 7, 5⟩ "boom" rfl (Or.inl rfl) (by decide) rfl

end LIFEE
